import Mathlib

/- Core `Rat` arithmetic is marked `@[irreducible]`, which keeps
`decide` from evaluating the embedded functions on concrete inputs;
unseal it so concrete runs reduce. -/
unseal Rat.mul Rat.add Rat.sub Rat.inv

/-!
Verification of the commit parser and time-calculation strategies of
`another-work-report-generator` (`src/commitsParser.js`).

The JavaScript source is shallowly embedded as follows:
* JS strings are modeled as `List Char`; `String.prototype.split` on a
  one-character separator is `splitOnChar`.
* JS numbers that stay integral (epoch seconds, millisecond timestamps,
  line counts) are `Int`/`Nat`; fractional time values are exact
  rationals `ℚ`.  Non-finite JS numbers (`NaN`, `Infinity`), which arise
  from `0/0` and `x/0`, are modeled as `none : Option ℚ`.
* `commit.shortDate` (the `YYYY-MM-DD` part of `Date.toISOString`) is
  modeled by the UTC day number `Int.fdiv ms 86400000`, an injective
  rendering of the calendar date (dates within `toISOString`'s valid
  range are assumed).
* `process.exit(0)` on an empty commit list is modeled, per the spec's
  external-interface instructions, as the distinct error value
  `RunError.noCommitsFound`; the `RangeError` thrown by `toISOString`
  on an invalid date is `RunError.invalidDate`.
-/

set_option maxRecDepth 8000

/-- `10 ^ p` as a rational, by structural recursion so that it evaluates
by kernel reduction. -/
def pow10 : Nat → ℚ
  | 0 => 1
  | p + 1 => 10 * pow10 p

/-- Model of lodash `_.round(x, p)`: round half-up at `p` decimal
digits (`Math.round` rounds ties toward `+∞`). -/
def jsRound (x : ℚ) (p : Nat) : ℚ :=
  ((x * pow10 p + 1 / 2).floor : ℚ) / pow10 p

/-- Model of `parseInt(x, 10)` applied to a (finite, moderate) number:
truncation toward zero. -/
def jsTrunc (q : ℚ) : Int :=
  if 0 ≤ q then q.floor else q.ceil

/-- Digits of a decimal literal to its value, most significant first. -/
def digitsToNat (ds : List Char) : Nat :=
  ds.foldl (fun n c => 10 * n + (c.toNat - 48)) 0

/-- Model of JS string-to-number coercion (`datetime * 1000`) restricted
to the shapes git emits: an optionally signed decimal integer with
surrounding blanks.  Anything else coerces to `NaN`, modeled as `none`.
(Fractional or exponent literals are not modeled.) -/
def jsStringToInt (cs : List Char) : Option Int :=
  let t := (cs.dropWhile (fun c => c = ' ' ∨ c = '\t')).reverse
  let t := (t.dropWhile (fun c => c = ' ' ∨ c = '\t')).reverse
  if t.isEmpty then some 0
  else
    match t with
    | '-' :: ds => if ds ≠ [] ∧ ds.all (·.isDigit) then some (-(digitsToNat ds : Int)) else none
    | ds => if ds.all (·.isDigit) then some (digitsToNat ds : Int) else none

/-- Model of `String.prototype.split(sep)` for a one-character
separator. -/
def splitOnChar (sep : Char) : List Char → List (List Char)
  | [] => [[]]
  | c :: cs =>
    if c = sep then [] :: splitOnChar sep cs
    else
      match splitOnChar sep cs with
      | [] => [[c]]
      | h :: t => (c :: h) :: t

/-- Model of `/([0-9]+) <kw>/.exec(s)`: the value captured by the first
maximal digit run that is immediately followed by the literal `kw`
(`none` when the pattern does not match).  The auxiliary flag records
whether the previous character was a digit, so only starts of maximal
runs are tried — positions inside a failed run cannot start a match
because the run ends, and hence the literal check, would be the same. -/
def extractNumAux (kw : List Char) : Bool → List Char → Option Nat
  | _, [] => none
  | prev, c :: cs =>
    if c.isDigit ∧ prev = false then
      let run := (c :: cs).takeWhile (·.isDigit)
      let rest := (c :: cs).dropWhile (·.isDigit)
      if kw.isPrefixOf rest then some (digitsToNat run)
      else extractNumAux kw true cs
    else extractNumAux kw c.isDigit cs

/-- Entry point of the regex model, starting outside any digit run. -/
def extractNum (kw : List Char) (l : List Char) : Option Nat :=
  extractNumAux kw false l

/-- The literal following the captured digits in `/([0-9]+) deletions/`. -/
def delKw : List Char := ' ' :: ['d', 'e', 'l', 'e', 't', 'i', 'o', 'n', 's']

/-- The literal following the captured digits in `/([0-9]+) insertions/`. -/
def insKw : List Char := ' ' :: ['i', 'n', 's', 'e', 'r', 't', 'i', 'o', 'n', 's']

/-- The settings object consumed by the parser and both calculation
strategies.  `startTime`/`endTime` are epoch milliseconds (the value of
`Date.getTime()`). -/
structure Settings where
  startTime : Int
  endTime : Int
  maxHoursPerDay : ℚ
  minCommitTime : ℚ
  graduation : ℚ
  equalRoundPrecision : Nat
deriving DecidableEq

/-- One element of the `rawCommits` input: a scanned repository with its
raw two-line commit blocks. -/
structure GitReport where
  gitFolder : List Char
  commits : List (List Char)
deriving DecidableEq

/-- A commit record.  Fields that JS may leave `undefined` (missing
semicolon-separated pieces of the description line, a too-short
repository path) are `Option`s.  `time` is absent (`none`) right after
parsing and also models a non-finite computed time; `isMinCommitTime`
is absent (`false`) unless the equal strategy sets it. -/
structure Commit where
  fullhash : Option (List Char)
  hash : Option (List Char)
  date : Int
  shortDate : Int
  text : Option (List Char)
  project : Option (List Char)
  lines : Nat
  time : Option ℚ := none
  isMinCommitTime : Bool := false
deriving DecidableEq

/-- The value returned by `_calculation`. -/
structure CalcResult where
  commits : List Commit
  commitsLengthMap : List (Int × Nat)
deriving DecidableEq

/-- The two ways a run can stop early, modeled as errors: the
`RangeError` of `toISOString` on an invalid date, and the
`process.exit(0)` on an empty filtered commit list. -/
inductive RunError where
  | invalidDate
  | noCommitsFound
deriving DecidableEq

/-- One commit block of `gitReport.commits`, parsed.  Mirrors the body
of the `map` callback in `_parse`: split into description and stats
lines, split the description on `;`, extract deletions/insertions with
default `0`, build the date from epoch seconds.  A missing or
non-numeric epoch-seconds field makes `new Date(NaN).toISOString()`
throw, hence `.error .invalidDate`. -/
def parseCommitBlock (gitFolder : List Char) (block : List Char) : Except RunError Commit :=
  let parts := splitOnChar '\n' block
  let description := parts.headD []
  let modifications := parts.get? 1
  let dparts := splitOnChar ';' description
  let deletions := (modifications.bind (extractNum delKw)).getD 0
  let insertions := (modifications.bind (extractNum insKw)).getD 0
  match (dparts.get? 2).bind jsStringToInt with
  | none => .error .invalidDate
  | some n =>
    .ok { fullhash := dparts.get? 0
          hash := dparts.get? 1
          date := n * 1000
          shortDate := (n * 1000).fdiv 86400000
          text := dparts.get? 3
          project := ((splitOnChar '/' gitFolder).reverse).get? 1
          lines := insertions + deletions }

/-- JS `Array.prototype.map` with a callback that can throw: the first
error aborts the whole map. -/
def mapE (f : α → Except RunError β) : List α → Except RunError (List β)
  | [] => .ok []
  | a :: l =>
    match f a, mapE f l with
    | .error e, _ => .error e
    | .ok _, .error e => .error e
    | .ok b, .ok l' => .ok (b :: l')

/-- Model of `commitsParser._parse`: parse every block of every
repository, keep commits strictly inside the `(startTime, endTime)`
window, and sort ascending by date.  `Array.prototype.sort` with the
comparator `a.date - b.date` is a stable ascending sort in modern
engines; all stable sorts agree, so it is modeled by insertion sort. -/
def _parse (rawCommits : List GitReport) (settings : Settings) : Except RunError (List Commit) :=
  match mapE (fun r => mapE (parseCommitBlock r.gitFolder) r.commits) rawCommits with
  | .error e => .error e
  | .ok nested =>
    .ok (((nested.flatten).filter
          (fun c => decide (settings.startTime < c.date ∧ c.date < settings.endTime))).insertionSort
        (fun a b => a.date ≤ b.date))

/-- Model of `dayCommits.reduce((prev, act) => prev + act.lines, 0)`
over the day bucket of `d`: total lines changed on that calendar day. -/
def dayLines (l : List Commit) (d : Int) : Nat :=
  (l.filter (fun c => c.shortDate == d)).foldl (fun p a => p + a.lines) 0

/-- Model of `ratio = filteredCommit.lines / linesInDay`.  When the day
bucket sums to zero lines the JS division is `0/0 = NaN` (the commit's
own lines are part of the sum, hence also zero), modeled as `none`. -/
def ratioOf (l : List Commit) (c : Commit) : Option ℚ :=
  if dayLines l c.shortDate = 0 then none
  else some ((c.lines : ℚ) / (dayLines l c.shortDate : ℚ))

/-- The `forEach` of `_calculation` that assigns `commit.time`: each
commit's time is the strategy applied to its ratio.  Field updates in
the JS loop only touch `time`, so the ratios, computed from `lines` and
`shortDate` of the same array, are those of the parsed list. -/
def annotate (f : Option ℚ → Option ℚ) (l : List Commit) : List Commit :=
  l.map (fun c => { c with time := f (ratioOf l c) })

/-- Model of the `commitsLengthMap` object: a fold over the commit list
that records `dayCommits.length` for a day the first time the day is
seen; `!commitsLengthMap[shortDate]` is the JS falsy test, true when the
key is absent or holds `0`.  Property assignment is modeled by
prepending (lookup finds the newest binding). -/
def lengthMapStep (commits : List Commit) (m : List (Int × Nat)) (c : Commit) :
    List (Int × Nat) :=
  if (m.lookup c.shortDate).getD 0 ≠ 0 then m
  else (c.shortDate, (commits.filter (fun x => x.shortDate == c.shortDate)).length) :: m

def buildLengthMap (commits : List Commit) : List (Int × Nat) :=
  commits.foldl (lengthMapStep commits) []

/-- Model of `commitsParser._calculation`: parse, assign times with the
given strategy, build the per-day count map, and signal
`noCommitsFound` (the `process.exit(0)` branch) when the filtered list
is empty. -/
def _calculation (rawCommits : List GitReport) (settings : Settings)
    (timeCalculationMethod : Option ℚ → Option ℚ) : Except RunError CalcResult :=
  match _parse rawCommits settings with
  | .error e => .error e
  | .ok parsed =>
    let commits := annotate timeCalculationMethod parsed
    if commits.isEmpty then .error .noCommitsFound
    else .ok ⟨commits, buildLengthMap commits⟩

/-- The standard strategy's `timeCalculationMethod`:
`parseInt((ratio * maxHoursPerDay) / graduation, 10) * graduation || minCommitTime`.
A `NaN` ratio makes the whole product `NaN`, which is falsy, so the
`||` falls back to `minCommitTime`; a zero product is falsy too. -/
def standardTime (settings : Settings) (r : Option ℚ) : Option ℚ :=
  match r with
  | none => some settings.minCommitTime
  | some q =>
    let t : ℚ := (jsTrunc (q * settings.maxHoursPerDay / settings.graduation) : ℚ) *
      settings.graduation
    some (if t = 0 then settings.minCommitTime else t)

/-- Model of `commitsParser.standardCalculation`. -/
def standardCalculation (rawCommits : List GitReport) (settings : Settings) :
    Except RunError CalcResult :=
  _calculation rawCommits settings (standardTime settings)

/-- The equal strategy's `timeCalculationMethod`:
`ratio * settings.maxHoursPerDay` (`NaN` propagates). -/
def equalTime (settings : Settings) (r : Option ℚ) : Option ℚ :=
  r.map (fun q => q * settings.maxHoursPerDay)

/-- The test `commit.time < settings.minCommitTime` of the equal
strategy's clamping loop; `NaN < x` is false in JS, so an absent
(non-finite) time is never clamped. -/
def timeBelow (m : ℚ) (c : Commit) : Bool :=
  match c.time with
  | some t => decide (t < m)
  | none => false

/-- `minCommitTimeCommits` for the day bucket of `d`: how many commits
of that day the clamping loop flags. -/
def dayFlagCount (settings : Settings) (all : List Commit) (d : Int) : Nat :=
  ((all.filter (fun c => c.shortDate == d)).filter (timeBelow settings.minCommitTime)).length

/-- JS division `a / b` of finite values: non-finite results (`b = 0`)
are modeled as `none`. -/
def jsDivQ (a b : ℚ) : Option ℚ :=
  if b = 0 then none else some (a / b)

/-- The per-commit effect of the equal strategy's per-day post-pass,
given `all` (the annotated commit list, whose bucket of
`c.shortDate` is the `_.groupBy` group of `c`): clamp to
`minCommitTime` and flag; if any commit of the day was flagged, rescale
the unflagged ones by `newMaxHoursPerDay / maxHoursPerDay`; finally
round at `equalRoundPrecision + 1` digits, then at
`equalRoundPrecision` digits. -/
def equalFinalCommit (settings : Settings) (all : List Commit) (c : Commit) : Commit :=
  let k := dayFlagCount settings all c.shortDate
  let newMax := settings.maxHoursPerDay - (k : ℚ) * settings.minCommitTime
  let clamped := timeBelow settings.minCommitTime c
  let time1 : Option ℚ := if clamped then some settings.minCommitTime else c.time
  let flag1 : Bool := if clamped then true else c.isMinCommitTime
  let time2 : Option ℚ :=
    if k ≠ 0 ∧ flag1 = false
    then time1.bind (fun t => (jsDivQ t settings.maxHoursPerDay).map (fun q => q * newMax))
    else time1
  { c with
    time := time2.map (fun t =>
      jsRound (jsRound t (settings.equalRoundPrecision + 1)) settings.equalRoundPrecision)
    isMinCommitTime := flag1 }

/-- Model of `commitsParser.equalCalculation`: run `_calculation` with
the proportional strategy, then apply the per-day clamping, rescaling
and rounding pass.  The in-place mutation of the grouped commits is
rendered as a map over the calculation's list (grouping by `shortDate`
partitions it, and the pass leaves the array order unchanged). -/
def equalCalculation (rawCommits : List GitReport) (settings : Settings) :
    Except RunError CalcResult :=
  match _calculation rawCommits settings (equalTime settings) with
  | .error e => .error e
  | .ok r => .ok ⟨r.commits.map (equalFinalCommit settings r.commits),
                  r.commitsLengthMap⟩

/-- Strips what the calculation strategies may add to a commit, leaving
the parsed fields. -/
def stripCalc (c : Commit) : Commit :=
  { c with time := none, isMinCommitTime := false }

/-- The standard strategy's time, written as the spec phrases it:
`floor((ratio * maxHoursPerDay) / graduation) * graduation`, with
`minCommitTime` when that value is `0`. -/
def stdSpec (settings : Settings) (q : ℚ) : ℚ :=
  if (⌊q * settings.maxHoursPerDay / settings.graduation⌋ : ℚ) * settings.graduation = 0
  then settings.minCommitTime
  else (⌊q * settings.maxHoursPerDay / settings.graduation⌋ : ℚ) * settings.graduation

/-- Worst-case distance between a value and its two-step rounding at
`p + 1` then `p` digits: half an ulp at each step. -/
def roundSlack (p : Nat) : ℚ :=
  1 / 2 * (pow10 p)⁻¹ + 1 / 2 * (pow10 (p + 1))⁻¹

/-- `x` is exactly representable with `p` decimal digits. -/
def decimalExact (x : ℚ) (p : Nat) : Prop :=
  ∃ m : Int, x * pow10 p = (m : ℚ)

theorem pow10_pos (p : Nat) : 0 < pow10 p := by
  induction p with
  | zero => norm_num [pow10]
  | succ n ih => rw [pow10]; exact mul_pos (by norm_num) ih

theorem int_floor_eq_ratFloor (q : ℚ) : ⌊q⌋ = q.floor := by
  rw [Rat.floor_def, Rat.floor_def']

theorem jsRound_eq (x : ℚ) (p : Nat) :
    jsRound x p = (⌊x * pow10 p + 1 / 2⌋ : ℚ) / pow10 p := by
  rw [jsRound, int_floor_eq_ratFloor]

theorem jsRound_nonneg (x : ℚ) (p : Nat) (hx : 0 ≤ x) : 0 ≤ jsRound x p := by
  rw [jsRound_eq]
  have hp := pow10_pos p
  apply div_nonneg _ (le_of_lt hp)
  have h : (0 : ℚ) ≤ x * pow10 p + 1 / 2 := by positivity
  exact_mod_cast Int.le_floor.mpr (by exact_mod_cast h)

theorem abs_jsRound_sub (x : ℚ) (p : Nat) :
    |jsRound x p - x| ≤ 1 / 2 * (pow10 p)⁻¹ := by
  rw [jsRound_eq]
  have hp := pow10_pos p
  have hne : pow10 p ≠ 0 := ne_of_gt hp
  set y := x * pow10 p with hy
  have h1 : (⌊y + 1 / 2⌋ : ℚ) ≤ y + 1 / 2 := Int.floor_le _
  have h2 : y + 1 / 2 < (⌊y + 1 / 2⌋ : ℚ) + 1 := Int.lt_floor_add_one _
  have hx' : x = y / pow10 p := by field_simp [hy]
  have hrw : (⌊y + 1 / 2⌋ : ℚ) / pow10 p - x = ((⌊y + 1 / 2⌋ : ℚ) - y) / pow10 p := by
    rw [hx']; ring
  rw [hrw, abs_div, abs_of_pos hp, div_le_iff₀ hp]
  have : |(⌊y + 1 / 2⌋ : ℚ) - y| ≤ 1 / 2 := by
    rw [abs_le]; constructor <;> linarith
  calc |(⌊y + 1 / 2⌋ : ℚ) - y| ≤ 1 / 2 := this
    _ = 1 / 2 * (pow10 p)⁻¹ * pow10 p := by field_simp
  
theorem jsRound_exact (x : ℚ) (p : Nat) (m : Int) (h : x * pow10 p = (m : ℚ)) :
    jsRound x p = x := by
  have hp := pow10_pos p
  rw [jsRound_eq, h]
  have hfl : ⌊(m : ℚ) + 1 / 2⌋ = m := by
    rw [Int.floor_eq_iff] <;> push_cast <;> constructor <;> norm_num
  rw [hfl]
  field_simp at h ⊢
  linarith [h]

theorem jsRoundTwice_exact (x : ℚ) (p : Nat) (h : decimalExact x p) :
    jsRound (jsRound x (p + 1)) p = x := by
  obtain ⟨m, hm⟩ := h
  have h1 : x * pow10 (p + 1) = ((10 * m : Int) : ℚ) := by
    rw [pow10]; push_cast; rw [mul_comm (10 : ℚ) (pow10 p), ← mul_assoc, hm]; ring
  rw [jsRound_exact x (p + 1) (10 * m) h1, jsRound_exact x p m hm]

theorem abs_jsRoundTwice_sub (x : ℚ) (p : Nat) :
    |jsRound (jsRound x (p + 1)) p - x| ≤ roundSlack p := by
  have h1 := abs_jsRound_sub (jsRound x (p + 1)) p
  have h2 := abs_jsRound_sub x (p + 1)
  have := abs_sub_le (jsRound (jsRound x (p + 1)) p) (jsRound x (p + 1)) x
  rw [roundSlack]
  linarith

theorem jsRoundTwice_nonneg (x : ℚ) (p : Nat) (hx : 0 ≤ x) :
    0 ≤ jsRound (jsRound x (p + 1)) p :=
  jsRound_nonneg _ _ (jsRound_nonneg _ _ hx)

theorem jsTrunc_of_nonneg (q : ℚ) (h : 0 ≤ q) : jsTrunc q = ⌊q⌋ := by
  rw [jsTrunc, if_pos h, int_floor_eq_ratFloor]

theorem foldl_add_lines (l : List Commit) (n : Nat) :
    l.foldl (fun p a => p + a.lines) n = n + (l.map (fun c => c.lines)).sum := by
  induction l generalizing n with
  | nil => simp
  | cons c t ih => simp [List.foldl_cons, ih, Nat.add_assoc]

theorem dayLines_eq (l : List Commit) (d : Int) :
    dayLines l d = ((l.filter (fun c => c.shortDate == d)).map (fun c => c.lines)).sum := by
  rw [dayLines, foldl_add_lines, Nat.zero_add]

theorem mapE_ok_mem {α β : Type} {f : α → Except RunError β} {l : List α} {l' : List β}
    (h : mapE f l = .ok l') : ∀ b ∈ l', ∃ a ∈ l, f a = .ok b := by
  induction l generalizing l' with
  | nil =>
    simp only [mapE] at h
    cases h
    intro b hb
    cases hb
  | cons a t ih =>
    simp only [mapE] at h
    cases hfa : f a with
    | error e => rw [hfa] at h; exact absurd h (by simp)
    | ok bb =>
      cases hml : mapE f t with
      | error e => rw [hfa, hml] at h; exact absurd h (by simp)
      | ok tt =>
        rw [hfa, hml] at h
        cases h
        intro b hb
        rcases List.mem_cons.mp hb with rfl | hb2
        · exact ⟨a, List.mem_cons_self a t, hfa⟩
        · obtain ⟨x, hx, hfx⟩ := ih hml b hb2
          exact ⟨x, List.mem_cons_of_mem a hx, hfx⟩

theorem parse_ok_elim {raw : List GitReport} {s : Settings} {l : List Commit}
    (h : _parse raw s = .ok l) :
    ∀ c ∈ l, (s.startTime < c.date ∧ c.date < s.endTime) ∧
      ∃ r ∈ raw, ∃ b ∈ r.commits, parseCommitBlock r.gitFolder b = .ok c := by
  rw [_parse] at h
  cases hm : mapE (fun r => mapE (parseCommitBlock r.gitFolder) r.commits) raw with
  | error e => rw [hm] at h; exact absurd h (by simp)
  | ok nested =>
    rw [hm] at h
    cases h
    intro c hc
    rw [List.mem_insertionSort] at hc
    have hmem := List.mem_filter.mp hc
    refine ⟨by simpa using of_decide_eq_true hmem.2, ?_⟩
    have hj : c ∈ nested.flatten := hmem.1
    obtain ⟨sub, hsub, hcsub⟩ := List.mem_flatten.mp hj
    obtain ⟨r, hr, hrsub⟩ := mapE_ok_mem hm sub hsub
    obtain ⟨b, hb, hbc⟩ := mapE_ok_mem hrsub c hcsub
    exact ⟨r, hr, b, hb, hbc⟩

theorem parseCommitBlock_ok_defaults {g b : List Char} {c : Commit}
    (h : parseCommitBlock g b = .ok c) : c.time = none ∧ c.isMinCommitTime = false := by
  rw [parseCommitBlock] at h
  cases hdt : ((splitOnChar ';' ((splitOnChar '\n' b).headD [])).get? 2).bind jsStringToInt with
  | none => rw [hdt] at h; exact absurd h (by simp)
  | some n => rw [hdt] at h; cases h; exact ⟨rfl, rfl⟩

theorem parse_ok_defaults {raw : List GitReport} {s : Settings} {l : List Commit}
    (h : _parse raw s = .ok l) :
    ∀ c ∈ l, c.time = none ∧ c.isMinCommitTime = false := by
  intro c hc
  obtain ⟨-, r, -, b, -, hbc⟩ := parse_ok_elim h c hc
  exact parseCommitBlock_ok_defaults hbc

theorem mem_annotate {f : Option ℚ → Option ℚ} {l : List Commit} {c : Commit}
    (hc : c ∈ annotate f l) :
    ∃ c0 ∈ l, c = { c0 with time := f (ratioOf l c0) } := by
  rcases List.mem_map.mp hc with ⟨c0, h0, h1⟩
  exact ⟨c0, h0, h1.symm⟩

theorem filter_annotate (f : Option ℚ → Option ℚ) (l : List Commit) (d : Int) :
    (annotate f l).filter (fun c => c.shortDate == d) =
      (l.filter (fun c => c.shortDate == d)).map
        (fun c => { c with time := f (ratioOf l c) }) := by
  rw [annotate, List.filter_map]
  rfl

theorem dayLines_annotate (f : Option ℚ → Option ℚ) (l : List Commit) (d : Int) :
    dayLines (annotate f l) d = dayLines l d := by
  rw [dayLines_eq, dayLines_eq, filter_annotate, List.map_map]
  rfl

theorem length_filter_annotate (f : Option ℚ → Option ℚ) (l : List Commit) (d : Int) :
    ((annotate f l).filter (fun c => c.shortDate == d)).length =
      (l.filter (fun c => c.shortDate == d)).length := by
  rw [filter_annotate, List.length_map]

theorem calculation_ok {raw : List GitReport} {s : Settings}
    {f : Option ℚ → Option ℚ} {res : CalcResult}
    (h : _calculation raw s f = .ok res) :
    ∃ parsed, _parse raw s = .ok parsed ∧ parsed ≠ [] ∧
      res.commits = annotate f parsed ∧
      res.commitsLengthMap = buildLengthMap (annotate f parsed) := by
  rw [_calculation] at h
  cases hp : _parse raw s with
  | error e => rw [hp] at h; exact absurd h (by simp)
  | ok parsed =>
    rw [hp] at h
    simp only [] at h
    by_cases he : (annotate f parsed).isEmpty
    · rw [if_pos he] at h; exact absurd h (by simp)
    · rw [if_neg he] at h
      cases h
      refine ⟨parsed, rfl, ?_, rfl, rfl⟩
      intro hnil
      apply he
      rw [hnil]
      rfl

theorem equal_ok {raw : List GitReport} {s : Settings} {res : CalcResult}
    (h : equalCalculation raw s = .ok res) :
    ∃ parsed, _parse raw s = .ok parsed ∧ parsed ≠ [] ∧
      res.commits = (annotate (equalTime s) parsed).map
        (equalFinalCommit s (annotate (equalTime s) parsed)) ∧
      res.commitsLengthMap = buildLengthMap (annotate (equalTime s) parsed) := by
  rw [equalCalculation] at h
  cases hc : _calculation raw s (equalTime s) with
  | error e => rw [hc] at h; exact absurd h (by simp)
  | ok inner =>
    rw [hc] at h
    cases h
    obtain ⟨parsed, hp, hne, hcom, hmap⟩ := calculation_ok hc
    exact ⟨parsed, hp, hne, by rw [hcom], by rw [hmap]⟩

deriving instance DecidableEq for Except

/-- C6: for every raw log list and time window, every commit in the
output of `_parse` satisfies `startTime < date < endTime` strictly; no
commit with `date ≤ startTime` or `date ≥ endTime` appears. -/
theorem parse_window_exclusive (raw : List GitReport) (s : Settings) (l : List Commit)
    (h : _parse raw s = .ok l) :
    ∀ c ∈ l, s.startTime < c.date ∧ c.date < s.endTime :=
  fun c hc => (parse_ok_elim h c hc).1

def w6raw : List GitReport :=
  [⟨"a/b/.git".toList, [("f1;h1;100000;m1" ++ "\n" ++ "1 file changed, 3 insertions(+)").toList]⟩]

def w6set : Settings := ⟨0, 1000000000, 8, 1/4, 1/4, 2⟩

def w6parsed : List Commit :=
  [⟨some "f1".toList, some "h1".toList, 100000000, 1, some "m1".toList, some "b".toList, 3,
    none, false⟩]

/-- Witness for `parse_window_exclusive` at a one-commit input. -/
theorem parse_window_exclusive_witness :
    _parse w6raw w6set = .ok w6parsed ∧
      ∀ c ∈ w6parsed, w6set.startTime < c.date ∧ c.date < w6set.endTime :=
  ⟨by decide, parse_window_exclusive w6raw w6set w6parsed (by decide)⟩

/-- C5: `_calculation` signals the distinct no-commits-found condition
(the modeled `process.exit(0)`) exactly when the parsed-and-filtered
commit list is empty, and returns a normal `{commits, commitsLengthMap}`
result for every non-empty parse. -/
theorem calculation_signals_noCommitsFound (raw : List GitReport) (s : Settings)
    (f : Option ℚ → Option ℚ) (parsed : List Commit) (hp : _parse raw s = .ok parsed) :
    (_calculation raw s f = .error .noCommitsFound ↔ parsed = []) ∧
    (parsed ≠ [] → ∃ res, _calculation raw s f = .ok res ∧ res.commits = annotate f parsed) := by
  have hlen : (annotate f parsed).isEmpty = true ↔ parsed = [] := by
    rw [annotate]; cases parsed <;> simp
  have hcal : _calculation raw s f =
      if (annotate f parsed).isEmpty then .error .noCommitsFound
      else .ok ⟨annotate f parsed, buildLengthMap (annotate f parsed)⟩ := by
    rw [_calculation, hp]
  constructor
  · rw [hcal]
    by_cases he : (annotate f parsed).isEmpty
    · rw [if_pos he]
      simp [hlen.mp he]
    · rw [if_neg he]
      constructor
      · intro h
        exact absurd h (by simp)
      · intro h
        exact absurd (hlen.mpr h) he
  · intro hne
    have he : ¬ (annotate f parsed).isEmpty = true := fun h => hne (hlen.mp h)
    exact ⟨_, by rw [hcal, if_neg he], rfl⟩

def w5raw : List GitReport :=
  [⟨"a/b/.git".toList, [("f1;h1;100000;m1" ++ "\n" ++ "1 file changed, 3 insertions(+)").toList]⟩]

def w5set : Settings := ⟨0, 1000000000, 8, 1/4, 1/4, 2⟩

def w5parsed : List Commit :=
  [⟨some "f1".toList, some "h1".toList, 100000000, 1, some "m1".toList, some "b".toList, 3,
    none, false⟩]

/-- Witness for `calculation_signals_noCommitsFound` with the standard
strategy on a one-commit input. -/
theorem calculation_signals_noCommitsFound_witness :
    _parse w5raw w5set = .ok w5parsed ∧
      ((_calculation w5raw w5set (standardTime w5set) = .error .noCommitsFound ↔ w5parsed = []) ∧
        (w5parsed ≠ [] → ∃ res, _calculation w5raw w5set (standardTime w5set) = .ok res ∧
          res.commits = annotate (standardTime w5set) w5parsed)) :=
  ⟨by decide, calculation_signals_noCommitsFound w5raw w5set (standardTime w5set) w5parsed
    (by decide)⟩

def c4raw : List GitReport :=
  [⟨"a/b/.git".toList, [("f1;h1;100000;m1" ++ "\n" ++ "0 files changed").toList]⟩]

def c4set : Settings := ⟨0, 1000000000, 8, 1/4, 1/4, 2⟩

def c4commit : Commit :=
  ⟨some "f1".toList, some "h1".toList, 100000000, 1, some "m1".toList, some "b".toList, 0,
    none, false⟩

/-- C4 (refuting evaluation): the division `lines / linesInDay` is NOT
guarded.  On a day bucket whose lines sum to `0` the JS code computes
`ratio = 0/0 = NaN` (modeled `none`), not `0`, and the equal strategy
propagates it into the commit's final `time` (`NaN`, modeled `none`). -/
theorem equalCalculation_nan_ratio_propagates :
    _parse c4raw c4set = .ok [c4commit] ∧
    dayLines [c4commit] c4commit.shortDate = 0 ∧
    ratioOf [c4commit] c4commit = none ∧
    (equalCalculation c4raw c4set).map (fun r => r.commits.map (fun c => c.time)) =
      .ok [none] :=
  ⟨by decide, by decide, by decide, by decide⟩

theorem splitOnChar_of_not_mem {sep : Char} {l : List Char} (h : sep ∉ l) :
    splitOnChar sep l = [l] := by
  induction l with
  | nil => rfl
  | cons c cs ih =>
    rw [splitOnChar, if_neg (fun hc => h (List.mem_cons.mpr (Or.inl hc.symm))),
      ih (fun hm => h (List.mem_cons_of_mem c hm))]

theorem splitOnChar_append {sep : Char} {l1 : List Char} (l2 : List Char) (h : sep ∉ l1) :
    splitOnChar sep (l1 ++ sep :: l2) = l1 :: splitOnChar sep l2 := by
  induction l1 with
  | nil => rw [List.nil_append, splitOnChar, if_pos rfl]
  | cons c cs ih =>
    rw [List.cons_append, splitOnChar,
      if_neg (fun hc => h (List.mem_cons.mpr (Or.inl hc.symm))),
      ih (fun hm => h (List.mem_cons_of_mem c hm))]

/-- C9 (amended): parsing is permissive about the stats line — an
absent stats line, or one where neither the deletions nor the
insertions pattern matches, makes the corresponding counts default to
`0` (so `lines = 0`) without failing; but a block whose epoch-seconds
field is missing or non-numeric fails with `invalidDate` rather than
defaulting to `0`. -/
theorem parse_malformed_defaults :
    (∀ (folder desc : List Char), '\n' ∉ desc →
      ∀ c, parseCommitBlock folder desc = .ok c → c.lines = 0) ∧
    (∀ (folder desc mods : List Char), '\n' ∉ desc → '\n' ∉ mods →
      extractNum delKw mods = none → extractNum insKw mods = none →
      ∀ c, parseCommitBlock folder (desc ++ '\n' :: mods) = .ok c → c.lines = 0) ∧
    (∀ (folder desc : List Char), '\n' ∉ desc →
      ((splitOnChar ';' desc).get? 2).bind jsStringToInt = none →
      parseCommitBlock folder desc = .error .invalidDate) := by
  refine ⟨?_, ?_, ?_⟩
  · intro folder desc hdesc c hc
    rw [parseCommitBlock, splitOnChar_of_not_mem hdesc] at hc
    simp only [List.headD, List.get?] at hc
    cases hdt : ((splitOnChar ';' desc).get? 2).bind jsStringToInt with
    | none => rw [hdt] at hc; exact absurd hc (by simp)
    | some n => rw [hdt] at hc; cases hc; rfl
  · intro folder desc mods hdesc hmods hdel hins c hc
    rw [parseCommitBlock, splitOnChar_append mods hdesc, splitOnChar_of_not_mem hmods] at hc
    simp only [List.headD, List.get?, Option.some_bind, hdel, hins] at hc
    cases hdt : ((splitOnChar ';' desc).get? 2).bind jsStringToInt with
    | none => rw [hdt] at hc; exact absurd hc (by simp)
    | some n => rw [hdt] at hc; cases hc; rfl
  · intro folder desc hdesc hdt
    rw [parseCommitBlock, splitOnChar_of_not_mem hdesc]
    simp only [List.headD, List.get?]
    rw [hdt]

def c9raw : List GitReport := [⟨"a/b/.git".toList, ["f1;h1".toList]⟩]

def c9set : Settings := ⟨0, 1000000000, 8, 1/4, 1/4, 2⟩

/-- C9 (refuting evaluation): a block whose epoch-seconds field is
missing does NOT default to `0` — `new Date(undefined * 1000)` is an
invalid date and `toISOString` throws, failing the whole run. -/
theorem parse_missing_datetime_fails :
    _parse c9raw c9set = .error .invalidDate :=
  by decide

/-- Witness for `parse_malformed_defaults` at concrete blocks: a block
with no stats line, a block whose stats line matches neither pattern,
and a block with a missing epoch-seconds field. -/
theorem parse_malformed_defaults_witness :
    ('\n' ∉ "f;h;100;m".toList ∧
      parseCommitBlock "a/b/.git".toList "f;h;100;m".toList =
        .ok ⟨some "f".toList, some "h".toList, 100000, 0, some "m".toList, some "b".toList, 0,
          none, false⟩) ∧
    ('\n' ∉ "f;h;100;m".toList ∧ '\n' ∉ "1 file changed".toList ∧
      extractNum delKw "1 file changed".toList = none ∧
      extractNum insKw "1 file changed".toList = none ∧
      parseCommitBlock "a/b/.git".toList ("f;h;100;m".toList ++ '\n' :: "1 file changed".toList) =
        .ok ⟨some "f".toList, some "h".toList, 100000, 0, some "m".toList, some "b".toList, 0,
          none, false⟩) ∧
    ('\n' ∉ "f;h".toList ∧
      ((splitOnChar ';' "f;h".toList).get? 2).bind jsStringToInt = none ∧
      parseCommitBlock "a/b/.git".toList "f;h".toList = .error .invalidDate) :=
  ⟨⟨by decide, by decide⟩,
    ⟨by decide, by decide, by decide, by decide, by decide⟩,
    ⟨by decide, by decide,
      parse_malformed_defaults.2.2 "a/b/.git".toList "f;h".toList (by decide) (by decide)⟩⟩

theorem stripCalc_annotate_eq {f : Option ℚ → Option ℚ} {l : List Commit}
    (hdef : ∀ c ∈ l, c.time = none ∧ c.isMinCommitTime = false) :
    (annotate f l).map stripCalc = l := by
  rw [annotate, List.map_map]
  have : ∀ c ∈ l, (stripCalc ∘ fun c => { c with time := f (ratioOf l c) }) c = id c := by
    intro c hc
    obtain ⟨ht, hf⟩ := hdef c hc
    cases c
    simp only [Function.comp, stripCalc, id]
    simp only [Commit.isMinCommitTime] at hf
    simp only [Commit.time] at ht
    rw [hf, ht]
  rw [List.map_congr_left this, List.map_id]

theorem stripCalc_equalFinalCommit (s : Settings) (all : List Commit) (c : Commit) :
    stripCalc (equalFinalCommit s all c) = stripCalc c :=
  rfl

/-- C10: both strategies return exactly the commit list produced by
`_parse` — same commits in the same order with all parsed fields
unchanged; the calculation only sets `time` (and, in the equal
strategy, possibly `isMinCommitTime`), which `stripCalc` removes. -/
theorem calculation_frame_preserves_parsed (raw : List GitReport) (s : Settings)
    (parsed : List Commit) (hp : _parse raw s = .ok parsed) :
    (∀ res, standardCalculation raw s = .ok res → res.commits.map stripCalc = parsed) ∧
    (∀ res, equalCalculation raw s = .ok res → res.commits.map stripCalc = parsed) := by
  have hdef := parse_ok_defaults hp
  constructor
  · intro res hres
    rw [standardCalculation] at hres
    obtain ⟨parsed2, hp2, -, hcom, -⟩ := calculation_ok hres
    rw [hp] at hp2
    cases hp2
    rw [hcom, stripCalc_annotate_eq hdef]
  · intro res hres
    obtain ⟨parsed2, hp2, -, hcom, -⟩ := equal_ok hres
    rw [hp] at hp2
    cases hp2
    rw [hcom, List.map_map]
    have : ∀ x ∈ annotate (equalTime s) parsed,
        (stripCalc ∘ equalFinalCommit s (annotate (equalTime s) parsed)) x = stripCalc x := by
      intro x hx
      exact stripCalc_equalFinalCommit s _ x
    rw [List.map_congr_left this, stripCalc_annotate_eq hdef]

def w10raw : List GitReport :=
  [⟨"a/b/.git".toList, [("f1;h1;100000;m1" ++ "\n" ++ "1 file changed, 3 insertions(+)").toList]⟩]

def w10set : Settings := ⟨0, 1000000000, 8, 1/4, 1/4, 2⟩

def w10parsed : List Commit :=
  [⟨some "f1".toList, some "h1".toList, 100000000, 1, some "m1".toList, some "b".toList, 3,
    none, false⟩]

/-- Witness for `calculation_frame_preserves_parsed` on a one-commit
input. -/
theorem calculation_frame_preserves_parsed_witness :
    _parse w10raw w10set = .ok w10parsed ∧
      ((∀ res, standardCalculation w10raw w10set = .ok res →
          res.commits.map stripCalc = w10parsed) ∧
        (∀ res, equalCalculation w10raw w10set = .ok res →
          res.commits.map stripCalc = w10parsed)) :=
  ⟨by decide, calculation_frame_preserves_parsed w10raw w10set w10parsed (by decide)⟩

/-- C1: with positive settings, every commit output by
`standardCalculation` gets
`floor((ratio * maxHoursPerDay) / graduation) * graduation`, with
`minCommitTime` instead when that value is `0` — including the `NaN`
ratio of an all-zero-lines day, which the `||` also sends to
`minCommitTime`; and a day with a single commit of non-zero lines has
`ratio = 1`, so its time is `maxHoursPerDay` floored to a multiple of
`graduation` (or `minCommitTime` when that floors to `0`). -/
theorem standardCalculation_time_formula (raw : List GitReport) (s : Settings)
    (hmax : 0 < s.maxHoursPerDay) (hgrad : 0 < s.graduation) (hmin : 0 < s.minCommitTime)
    (res : CalcResult) (hres : standardCalculation raw s = .ok res)
    (c : Commit) (hc : c ∈ res.commits) :
    (0 < dayLines res.commits c.shortDate →
      c.time = some (stdSpec s ((c.lines : ℚ) / (dayLines res.commits c.shortDate : ℚ)))) ∧
    (dayLines res.commits c.shortDate = 0 → c.time = some s.minCommitTime) ∧
    ((res.commits.filter (fun x => x.shortDate == c.shortDate)).length = 1 → c.lines ≠ 0 →
      c.time = some (stdSpec s 1)) := by
  rw [standardCalculation] at hres
  obtain ⟨parsed, hp, -, hcom, -⟩ := calculation_ok hres
  rw [hcom] at hc ⊢
  obtain ⟨c0, h0, rfl⟩ := mem_annotate hc
  have hsd : ({ c0 with time := standardTime s (ratioOf parsed c0) } : Commit).shortDate
      = c0.shortDate := rfl
  have hln : ({ c0 with time := standardTime s (ratioOf parsed c0) } : Commit).lines
      = c0.lines := rfl
  rw [hsd, hln, dayLines_annotate, length_filter_annotate]
  have hq : ∀ hL : 0 < dayLines parsed c0.shortDate,
      standardTime s (ratioOf parsed c0) =
        some (stdSpec s ((c0.lines : ℚ) / (dayLines parsed c0.shortDate : ℚ))) := by
    intro hL
    rw [ratioOf, if_neg (Nat.pos_iff_ne_zero.mp hL), standardTime]
    have hq0 : (0 : ℚ) ≤ (c0.lines : ℚ) / (dayLines parsed c0.shortDate : ℚ) :=
      div_nonneg (Nat.cast_nonneg _) (Nat.cast_nonneg _)
    have hx0 : (0 : ℚ) ≤ (c0.lines : ℚ) / (dayLines parsed c0.shortDate : ℚ) *
        s.maxHoursPerDay / s.graduation :=
      div_nonneg (mul_nonneg hq0 hmax.le) hgrad.le
    rw [stdSpec, jsTrunc_of_nonneg _ hx0]
  refine ⟨fun hL => hq hL, fun hL => ?_, fun hlen hne => ?_⟩
  · rw [ratioOf, if_pos hL, standardTime]
  · have hc0f : c0 ∈ parsed.filter (fun x => x.shortDate == c0.shortDate) :=
      List.mem_filter.mpr ⟨h0, by simp⟩
    obtain ⟨a, ha⟩ := List.length_eq_one.mp hlen
    rw [ha] at hc0f
    have hac : a = c0 := (List.mem_singleton.mp hc0f).symm
    rw [hac] at ha
    have hdl : dayLines parsed c0.shortDate = c0.lines := by
      rw [dayLines_eq, ha]
      simp
    have hLpos : 0 < dayLines parsed c0.shortDate := by
      rw [hdl]
      exact Nat.pos_of_ne_zero hne
    have := hq hLpos
    rw [hdl] at this
    rw [this, div_self (by exact_mod_cast hne)]


def w1raw : List GitReport :=
  [⟨"a/b/.git".toList, [("f1;h1;100000;m1" ++ "\n" ++ "1 file changed, 3 insertions(+)").toList]⟩]

def w1set : Settings := ⟨0, 1000000000, 8, 1/4, 1/4, 2⟩

def w1c : Commit :=
  ⟨some "f1".toList, some "h1".toList, 100000000, 1, some "m1".toList, some "b".toList, 3,
    some 8, false⟩

def w1res : CalcResult := ⟨[w1c], [(1, 1)]⟩

/-- Witness for `standardCalculation_time_formula` on a
single-commit-day input (`ratio = 1`, time `8`). -/
theorem standardCalculation_time_formula_witness :
    (0 < w1set.maxHoursPerDay ∧ 0 < w1set.graduation ∧ 0 < w1set.minCommitTime) ∧
    standardCalculation w1raw w1set = .ok w1res ∧ w1c ∈ w1res.commits ∧
    ((0 < dayLines w1res.commits w1c.shortDate →
      w1c.time = some (stdSpec w1set
        ((w1c.lines : ℚ) / (dayLines w1res.commits w1c.shortDate : ℚ)))) ∧
    (dayLines w1res.commits w1c.shortDate = 0 → w1c.time = some w1set.minCommitTime) ∧
    ((w1res.commits.filter (fun x => x.shortDate == w1c.shortDate)).length = 1 → w1c.lines ≠ 0 →
      w1c.time = some (stdSpec w1set 1))) :=
  ⟨⟨by decide, by decide, by decide⟩,
    by decide, by decide,
    standardCalculation_time_formula w1raw w1set (by decide) (by decide)
      (by decide) w1res (by decide) w1c (by decide)⟩

/-- Invariant of the `commitsLengthMap` fold: every recorded value is
the (positive) bucket size of its key. -/
def goodMap (commits : List Commit) (m : List (Int × Nat)) : Prop :=
  ∀ d n, m.lookup d = some n →
    n = (commits.filter (fun x => x.shortDate == d)).length ∧ 0 < n

theorem goodMap_nil (commits : List Commit) : goodMap commits [] := by
  intro d n h
  cases h

theorem goodMap_step {commits : List Commit} {m : List (Int × Nat)} {c : Commit}
    (hm : goodMap commits m) (hc : c ∈ commits) :
    goodMap commits (lengthMapStep commits m c) := by
  rw [lengthMapStep]
  by_cases hlk : (m.lookup c.shortDate).getD 0 ≠ 0
  · rw [if_pos hlk]; exact hm
  · rw [if_neg hlk]
    intro d n h
    rw [List.lookup_cons] at h
    by_cases hd : d = c.shortDate
    · rw [show (d == c.shortDate) = true from beq_iff_eq.mpr hd] at h
      cases h
      subst hd
      refine ⟨rfl, ?_⟩
      exact List.length_pos_of_mem (List.mem_filter.mpr ⟨hc, by simp⟩)
    · rw [show (d == c.shortDate) = false from beq_eq_false_iff_ne.mpr hd] at h
      exact hm d n h

theorem lookup_lengthMapStep {commits : List Commit} {m : List (Int × Nat)} {c : Commit}
    {d : Int} {n : Nat} (hm : goodMap commits m) (h : m.lookup d = some n) :
    (lengthMapStep commits m c).lookup d = some n := by
  rw [lengthMapStep]
  by_cases hlk : (m.lookup c.shortDate).getD 0 ≠ 0
  · rw [if_pos hlk]; exact h
  · rw [if_neg hlk]
    by_cases hd : d = c.shortDate
    · subst hd
      rw [h] at hlk
      exact absurd (hm _ n h).2 (by simpa using hlk)
    · rw [List.lookup_cons,
        show (d == c.shortDate) = false from beq_eq_false_iff_ne.mpr hd]
      exact h

theorem lookup_foldl_lengthMapStep {commits : List Commit} :
    ∀ (rest : List Commit) (m : List (Int × Nat)), goodMap commits m →
      (∀ x ∈ rest, x ∈ commits) → ∀ d n, m.lookup d = some n →
      (rest.foldl (lengthMapStep commits) m).lookup d = some n := by
  intro rest
  induction rest with
  | nil => intro m hm _ d n h; exact h
  | cons c t ih =>
    intro m hm hsub d n h
    rw [List.foldl_cons]
    exact ih (lengthMapStep commits m c)
      (goodMap_step hm (hsub c (List.mem_cons_self c t)))
      (fun x hx => hsub x (List.mem_cons_of_mem c hx)) d n
      (lookup_lengthMapStep hm h)

theorem lookup_foldl_of_mem {commits : List Commit} :
    ∀ (rest : List Commit) (m : List (Int × Nat)), goodMap commits m →
      (∀ x ∈ rest, x ∈ commits) → ∀ d, (∃ c ∈ rest, c.shortDate = d) →
      (rest.foldl (lengthMapStep commits) m).lookup d =
        some ((commits.filter (fun x => x.shortDate == d)).length) := by
  intro rest
  induction rest with
  | nil =>
    intro m _ _ d hd
    obtain ⟨c, hc, -⟩ := hd
    cases hc
  | cons c t ih =>
    intro m hm hsub d hd
    rw [List.foldl_cons]
    have hmem : c ∈ commits := hsub c (List.mem_cons_self c t)
    have hm' := goodMap_step hm hmem
    have hsub' : ∀ x ∈ t, x ∈ commits := fun x hx => hsub x (List.mem_cons_of_mem c hx)
    by_cases hdc : c.shortDate = d
    · subst hdc
      have hlook : (lengthMapStep commits m c).lookup c.shortDate =
          some ((commits.filter (fun x => x.shortDate == c.shortDate)).length) := by
        rw [lengthMapStep]
        by_cases hlk : (m.lookup c.shortDate).getD 0 ≠ 0
        · rw [if_pos hlk]
          cases hmk : m.lookup c.shortDate with
          | none => rw [hmk] at hlk; simp at hlk
          | some k =>
            exact congrArg some (hm c.shortDate k hmk).1
        · rw [if_neg hlk, List.lookup_cons,
            show (c.shortDate == c.shortDate) = true from beq_iff_eq.mpr rfl]
      exact lookup_foldl_lengthMapStep t (lengthMapStep commits m c) hm' hsub'
        c.shortDate _ hlook
    · obtain ⟨x, hx, hxd⟩ := hd
      rcases List.mem_cons.mp hx with rfl | hx2
      · exact absurd hxd hdc
      · exact ih (lengthMapStep commits m c) hm' hsub' d ⟨x, hx2, hxd⟩

theorem lookup_buildLengthMap (commits : List Commit) (d : Int)
    (hd : ∃ c ∈ commits, c.shortDate = d) :
    (buildLengthMap commits).lookup d =
      some ((commits.filter (fun x => x.shortDate == d)).length) := by
  rw [buildLengthMap]
  exact lookup_foldl_of_mem commits [] (goodMap_nil commits) (fun x hx => hx) d hd

/-- C8: for every day present in the calculation output,
`commitsLengthMap` holds exactly the number of output commits of that
day, and — since the recorded value is the bucket size, which is
permutation-invariant — the same value results for any processing
order of the commit list. -/
theorem calculation_lengthMap_counts (raw : List GitReport) (s : Settings)
    (f : Option ℚ → Option ℚ) (res : CalcResult)
    (h : _calculation raw s f = .ok res) (d : Int)
    (hd : ∃ c ∈ res.commits, c.shortDate = d) :
    res.commitsLengthMap.lookup d =
      some ((res.commits.filter (fun c => c.shortDate == d)).length) ∧
    ∀ l', res.commits.Perm l' →
      (buildLengthMap l').lookup d =
        some ((res.commits.filter (fun c => c.shortDate == d)).length) := by
  obtain ⟨parsed, hp, hne, hcom, hmap⟩ := calculation_ok h
  constructor
  · rw [hmap, ← hcom]
    exact lookup_buildLengthMap res.commits d hd
  · intro l' hperm
    have hd' : ∃ c ∈ l', c.shortDate = d := by
      obtain ⟨c, hc, hcd⟩ := hd
      exact ⟨c, hperm.mem_iff.mp hc, hcd⟩
    rw [lookup_buildLengthMap l' d hd']
    exact congrArg some ((hperm.filter (fun c => c.shortDate == d)).length_eq).symm

def w8raw : List GitReport :=
  [⟨"a/b/.git".toList,
    [("f1;h1;100000;m1" ++ "\n" ++ "1 file changed, 3 insertions(+)").toList,
     ("f2;h2;100001;m2" ++ "\n" ++ "1 file changed, 3 insertions(+)").toList]⟩]

def w8set : Settings := ⟨0, 1000000000, 8, 1/4, 1/4, 2⟩

def w8res : CalcResult :=
  ⟨[⟨some "f1".toList, some "h1".toList, 100000000, 1, some "m1".toList, some "b".toList, 3,
      some 4, false⟩,
    ⟨some "f2".toList, some "h2".toList, 100001000, 1, some "m2".toList, some "b".toList, 3,
      some 4, false⟩],
   [(1, 2)]⟩

/-- Witness for `calculation_lengthMap_counts` on a two-commit day. -/
theorem calculation_lengthMap_counts_witness :
    _calculation w8raw w8set (standardTime w8set) = .ok w8res ∧
    (∃ c ∈ w8res.commits, c.shortDate = 1) ∧
    (w8res.commitsLengthMap.lookup 1 =
      some ((w8res.commits.filter (fun c => c.shortDate == 1)).length) ∧
    ∀ l', w8res.commits.Perm l' →
      (buildLengthMap l').lookup 1 =
        some ((w8res.commits.filter (fun c => c.shortDate == 1)).length)) :=
  ⟨by decide, by decide,
    calculation_lengthMap_counts w8raw w8set (standardTime w8set) w8res (by decide) 1
      (by decide)⟩

theorem efc_of_below (s : Settings) (all : List Commit) (c : Commit)
    (h : timeBelow s.minCommitTime c = true) :
    equalFinalCommit s all c =
      { c with
        time := some (jsRound (jsRound s.minCommitTime (s.equalRoundPrecision + 1))
          s.equalRoundPrecision),
        isMinCommitTime := true } := by
  rw [equalFinalCommit]
  simp only [h, if_true]
  rw [if_neg (by simp)]
  rfl

theorem efc_not_below_k0 (s : Settings) (all : List Commit) (c : Commit)
    (hb : timeBelow s.minCommitTime c = false)
    (hk : dayFlagCount s all c.shortDate = 0) :
    equalFinalCommit s all c =
      { c with
        time := c.time.map (fun t =>
          jsRound (jsRound t (s.equalRoundPrecision + 1)) s.equalRoundPrecision),
        isMinCommitTime := c.isMinCommitTime } := by
  rw [equalFinalCommit]
  simp only [hb, if_false, hk]
  rw [if_neg (by simp)]
  simp

theorem efc_not_below_kpos (s : Settings) (all : List Commit) (c : Commit)
    (hb : timeBelow s.minCommitTime c = false)
    (hfl : c.isMinCommitTime = false)
    (hk : dayFlagCount s all c.shortDate ≠ 0) :
    equalFinalCommit s all c =
      { c with
        time := (c.time.bind (fun t => (jsDivQ t s.maxHoursPerDay).map
          (fun q => q * (s.maxHoursPerDay -
            (dayFlagCount s all c.shortDate : ℚ) * s.minCommitTime)))).map
          (fun t => jsRound (jsRound t (s.equalRoundPrecision + 1)) s.equalRoundPrecision),
        isMinCommitTime := c.isMinCommitTime } := by
  rw [equalFinalCommit]
  simp only [hb, if_false]
  rw [if_pos ⟨hk, hfl⟩]
  simp

/-- C3 (amended): in `equalCalculation`, a commit whose initial
proportional allocation is below `minCommitTime` is flagged and its
pre-rounding time is exactly `minCommitTime`; its final time is the
two-step rounding of `minCommitTime`, which equals `minCommitTime`
itself exactly when `minCommitTime` is representable at
`equalRoundPrecision` decimal digits. -/
theorem equalCalculation_clamped_time (raw : List GitReport) (s : Settings)
    (parsed : List Commit) (res : CalcResult) (i : Nat) (c0 c : Commit) (t0 : ℚ)
    (hp : _parse raw s = .ok parsed) (hres : equalCalculation raw s = .ok res)
    (h0 : parsed[i]? = some c0) (hc : res.commits[i]? = some c)
    (ht0 : equalTime s (ratioOf parsed c0) = some t0) (hlt : t0 < s.minCommitTime) :
    c.isMinCommitTime = true ∧
    c.time = some (jsRound (jsRound s.minCommitTime (s.equalRoundPrecision + 1))
      s.equalRoundPrecision) ∧
    (decimalExact s.minCommitTime s.equalRoundPrecision → c.time = some s.minCommitTime) := by
  obtain ⟨parsed2, hp2, -, hcom, -⟩ := equal_ok hres
  rw [hp] at hp2
  cases hp2
  rw [hcom, List.getElem?_map, annotate, List.getElem?_map, h0] at hc
  simp only [Option.map_some'] at hc
  have hbel : timeBelow s.minCommitTime
      ({ c0 with time := equalTime s (ratioOf parsed c0) } : Commit) = true := by
    rw [timeBelow]
    have : ({ c0 with time := equalTime s (ratioOf parsed c0) } : Commit).time = some t0 := ht0
    rw [this]
    exact decide_eq_true hlt
  rw [← annotate] at hc
  rw [efc_of_below _ _ _ hbel] at hc
  cases hc
  refine ⟨rfl, rfl, fun hex => ?_⟩
  have := jsRoundTwice_exact s.minCommitTime s.equalRoundPrecision hex
  simp only [Commit.time]
  rw [this]

def c3raw : List GitReport :=
  [⟨"a/b/.git".toList,
    [("f1;h1;100000;m1" ++ "\n" ++ "1 file changed, 1 insertions(+)").toList,
     ("f2;h2;100001;m2" ++ "\n" ++ "1 file changed, 127 insertions(+)").toList]⟩]

def c3set : Settings := ⟨0, 1000000000, 8, 1/8, 1/4, 1⟩

/-- C3 (refuting evaluation): with `minCommitTime = 1/8` and
`equalRoundPrecision = 1`, the commit whose allocation `8/128 = 1/16`
is below the minimum is clamped to `1/8` but the final two-step
rounding turns it into `0.1 ≠ 1/8`, so the final time is not exactly
`minCommitTime`. -/
theorem equalCalculation_clamped_time_counterexample :
    (equalCalculation c3raw c3set).map
        (fun r => r.commits.map (fun c => (c.time, c.isMinCommitTime))) =
      .ok [(some (1/10), true), (some (39/5), false)] ∧
    (1 : ℚ) / 128 * 8 < 1/8 ∧ ¬ ((1 : ℚ)/10 = 1/8) :=
  ⟨by decide, by decide, by decide⟩

def w3raw : List GitReport :=
  [⟨"a/b/.git".toList,
    [("f1;h1;100000;m1" ++ "\n" ++ "1 file changed, 1 insertions(+)").toList,
     ("f2;h2;100001;m2" ++ "\n" ++ "1 file changed, 127 insertions(+)").toList]⟩]

def w3set : Settings := ⟨0, 1000000000, 8, 1/4, 1/4, 2⟩

def w3parsed : List Commit :=
  [⟨some "f1".toList, some "h1".toList, 100000000, 1, some "m1".toList, some "b".toList, 1,
    none, false⟩,
   ⟨some "f2".toList, some "h2".toList, 100001000, 1, some "m2".toList, some "b".toList, 127,
    none, false⟩]

def w3c0 : Commit :=
  ⟨some "f1".toList, some "h1".toList, 100000000, 1, some "m1".toList, some "b".toList, 1,
    none, false⟩

def w3res : CalcResult :=
  ⟨[⟨some "f1".toList, some "h1".toList, 100000000, 1, some "m1".toList, some "b".toList, 1,
      some (1/4), true⟩,
    ⟨some "f2".toList, some "h2".toList, 100001000, 1, some "m2".toList, some "b".toList, 127,
      some (769/100), false⟩],
   [(1, 2)]⟩

/-- Witness for `equalCalculation_clamped_time`: `minCommitTime = 1/4`
is exact at precision `2`, and the clamped commit's final time is
exactly `1/4`. -/
theorem equalCalculation_clamped_time_witness :
    _parse w3raw w3set = .ok w3parsed ∧
    equalCalculation w3raw w3set = .ok w3res ∧
    w3parsed[0]? = some w3c0 ∧
    equalTime w3set (ratioOf w3parsed w3c0) = some (1/16) ∧
    (1 : ℚ)/16 < w3set.minCommitTime ∧
    decimalExact w3set.minCommitTime w3set.equalRoundPrecision ∧
    (∀ c, w3res.commits[0]? = some c → c.isMinCommitTime = true ∧ c.time = some (1/4)) := by
  refine ⟨by decide, by decide, by decide, by decide, by decide, ⟨25, by norm_num [w3set, pow10]⟩,
    fun c hc => ?_⟩
  have h := equalCalculation_clamped_time w3raw w3set w3parsed w3res 0 w3c0 c (1/16)
    (by decide) (by decide) (by decide) hc (by decide) (by decide)
  exact ⟨h.1, by
    have := h.2.2 ⟨25, by norm_num [w3set, pow10]⟩
    simpa [w3set] using this⟩

theorem standardTime_nonneg (s : Settings) (hmax : 0 ≤ s.maxHoursPerDay)
    (hgrad : 0 < s.graduation) (hmin : 0 ≤ s.minCommitTime)
    (r : Option ℚ) (hr : ∀ q, r = some q → 0 ≤ q) :
    ∃ t, standardTime s r = some t ∧ 0 ≤ t := by
  cases r with
  | none => exact ⟨s.minCommitTime, rfl, hmin⟩
  | some q =>
    have hq := hr q rfl
    have hx : (0 : ℚ) ≤ q * s.maxHoursPerDay / s.graduation :=
      div_nonneg (mul_nonneg hq hmax) hgrad.le
    rw [standardTime]
    by_cases ht : (jsTrunc (q * s.maxHoursPerDay / s.graduation) : ℚ) * s.graduation = 0
    · exact ⟨s.minCommitTime, by rw [if_pos ht], hmin⟩
    · refine ⟨_, by rw [if_neg ht], ?_⟩
      rw [jsTrunc_of_nonneg _ hx]
      have : (0 : ℚ) ≤ (⌊q * s.maxHoursPerDay / s.graduation⌋ : ℚ) := by
        exact_mod_cast Int.le_floor.mpr (by exact_mod_cast hx)
      exact mul_nonneg this hgrad.le

theorem exists_flagged_of_dayFlagCount_pos (s : Settings) (all : List Commit) (d : Int)
    (h : dayFlagCount s all d ≠ 0) :
    ∃ c ∈ all, c.shortDate = d ∧ timeBelow s.minCommitTime c = true := by
  rw [dayFlagCount] at h
  obtain ⟨c, hc⟩ := List.exists_mem_of_length_pos (Nat.pos_of_ne_zero h)
  have h2 := List.mem_filter.mp hc
  have h3 := List.mem_filter.mp h2.1
  exact ⟨c, h3.1, by simpa using h3.2, h2.2⟩

/-- C7 (amended): after `standardCalculation` with `maxHoursPerDay ≥ 0`,
`graduation > 0` and `minCommitTime ≥ 0`, every commit's time is a
value `≥ 0`, for every input.  After `equalCalculation` the same holds
provided additionally that every output day has positive total lines
(otherwise the time is the non-finite `NaN`) and that each day's
clamped-commit count `k` satisfies `k * minCommitTime ≤ maxHoursPerDay`
(otherwise the rescaling multiplies by a negative remaining budget and
produces a negative time). -/
theorem calculation_time_nonneg :
    (∀ (raw : List GitReport) (s : Settings) (res : CalcResult),
      0 ≤ s.maxHoursPerDay → 0 < s.graduation → 0 ≤ s.minCommitTime →
      standardCalculation raw s = .ok res →
      ∀ c ∈ res.commits, ∃ t, c.time = some t ∧ 0 ≤ t) ∧
    (∀ (raw : List GitReport) (s : Settings) (parsed : List Commit) (res : CalcResult),
      0 ≤ s.maxHoursPerDay → 0 ≤ s.minCommitTime →
      _parse raw s = .ok parsed →
      (∀ c0 ∈ parsed, 0 < dayLines parsed c0.shortDate) →
      (∀ c0 ∈ parsed,
        (dayFlagCount s (annotate (equalTime s) parsed) c0.shortDate : ℚ) * s.minCommitTime ≤
          s.maxHoursPerDay) →
      equalCalculation raw s = .ok res →
      ∀ c ∈ res.commits, ∃ t, c.time = some t ∧ 0 ≤ t) := by
  constructor
  · intro raw s res hmax hgrad hmin hres c hc
    rw [standardCalculation] at hres
    obtain ⟨parsed, hp, -, hcom, -⟩ := calculation_ok hres
    rw [hcom] at hc
    obtain ⟨c0, h0, rfl⟩ := mem_annotate hc
    apply standardTime_nonneg s hmax hgrad hmin
    intro q hq
    rw [ratioOf] at hq
    by_cases hL : dayLines parsed c0.shortDate = 0
    · rw [if_pos hL] at hq; cases hq
    · rw [if_neg hL] at hq
      cases hq
      exact div_nonneg (Nat.cast_nonneg _) (Nat.cast_nonneg _)
  · intro raw s parsed res hmax hmin hp hL hflag hres c hc
    obtain ⟨parsed2, hp2, -, hcom, -⟩ := equal_ok hres
    rw [hp] at hp2
    cases hp2
    rw [hcom] at hc
    obtain ⟨c1, hc1, rfl⟩ := List.mem_map.mp hc
    obtain ⟨c0, h0, rfl⟩ := mem_annotate hc1
    have hsd : ({ c0 with time := equalTime s (ratioOf parsed c0) } : Commit).shortDate
        = c0.shortDate := rfl
    have hLpos := hL c0 h0
    have hro : ratioOf parsed c0 =
        some ((c0.lines : ℚ) / (dayLines parsed c0.shortDate : ℚ)) := by
      rw [ratioOf, if_neg (Nat.pos_iff_ne_zero.mp hLpos)]
    have hq0 : (0 : ℚ) ≤ (c0.lines : ℚ) / (dayLines parsed c0.shortDate : ℚ) :=
      div_nonneg (Nat.cast_nonneg _) (Nat.cast_nonneg _)
    have ht0 : ({ c0 with time := equalTime s (ratioOf parsed c0) } : Commit).time =
        some ((c0.lines : ℚ) / (dayLines parsed c0.shortDate : ℚ) * s.maxHoursPerDay) := by
      show equalTime s (ratioOf parsed c0) = _
      rw [hro, equalTime]
      rfl
    have ht0n : (0 : ℚ) ≤ (c0.lines : ℚ) / (dayLines parsed c0.shortDate : ℚ) *
        s.maxHoursPerDay := mul_nonneg hq0 hmax
    by_cases hb : timeBelow s.minCommitTime
        ({ c0 with time := equalTime s (ratioOf parsed c0) } : Commit) = true
    · rw [efc_of_below _ _ _ hb]
      exact ⟨_, rfl, jsRoundTwice_nonneg _ _ hmin⟩
    · rw [Bool.not_eq_true] at hb
      by_cases hk : dayFlagCount s (annotate (equalTime s) parsed)
          ({ c0 with time := equalTime s (ratioOf parsed c0) } : Commit).shortDate = 0
      · rw [efc_not_below_k0 _ _ _ hb hk, ht0]
        exact ⟨_, rfl, jsRoundTwice_nonneg _ _ ht0n⟩
      · -- the clamped count is positive: some commit of the day is below the minimum
        have hmin_pos : 0 < s.minCommitTime := by
          obtain ⟨cf, hcf, -, hcfb⟩ := exists_flagged_of_dayFlagCount_pos s _ _ hk
          obtain ⟨cf0, hcf0, rfl⟩ := mem_annotate hcf
          have hLf := hL cf0 hcf0
          have hrof : ratioOf parsed cf0 =
              some ((cf0.lines : ℚ) / (dayLines parsed cf0.shortDate : ℚ)) := by
            rw [ratioOf, if_neg (Nat.pos_iff_ne_zero.mp hLf)]
          have htf : ({ cf0 with time := equalTime s (ratioOf parsed cf0) } : Commit).time =
              some ((cf0.lines : ℚ) / (dayLines parsed cf0.shortDate : ℚ) *
                s.maxHoursPerDay) := by
            show equalTime s (ratioOf parsed cf0) = _
            rw [hrof, equalTime]
            rfl
          rw [timeBelow, htf] at hcfb
          have hlt := of_decide_eq_true hcfb
          have : (0 : ℚ) ≤ (cf0.lines : ℚ) / (dayLines parsed cf0.shortDate : ℚ) *
              s.maxHoursPerDay :=
            mul_nonneg (div_nonneg (Nat.cast_nonneg _) (Nat.cast_nonneg _)) hmax
          linarith
        have htmin : s.minCommitTime ≤ (c0.lines : ℚ) /
            (dayLines parsed c0.shortDate : ℚ) * s.maxHoursPerDay := by
          rw [timeBelow, ht0] at hb
          have := of_decide_eq_false hb
          linarith [not_lt.mp this]
        have hmaxpos : 0 < s.maxHoursPerDay := by
          rcases lt_or_eq_of_le hmax with h | h
          · exact h
          · exfalso
            rw [← h, mul_zero] at htmin
            linarith
        have hfl0 : c0.isMinCommitTime = false := (parse_ok_defaults hp c0 h0).2
        rw [efc_not_below_kpos _ _ _ hb hfl0 hk, ht0]
        simp only [Option.some_bind]
        rw [jsDivQ, if_neg (ne_of_gt hmaxpos)]
        refine ⟨_, rfl, jsRoundTwice_nonneg _ _ ?_⟩
        apply mul_nonneg (div_nonneg ht0n hmaxpos.le)
        rw [sub_nonneg, hsd]
        exact hflag c0 h0

def c7raw : List GitReport :=
  [⟨"a/b/.git".toList,
    [("f1;h1;100000;m1" ++ "\n" ++ "1 file changed, 3 insertions(+)").toList,
     ("f2;h2;100001;m2" ++ "\n" ++ "1 file changed, 3 insertions(+)").toList,
     ("f3;h3;100002;m3" ++ "\n" ++ "1 file changed, 3 insertions(+)").toList,
     ("f4;h4;100003;m4" ++ "\n" ++ "1 file changed, 11 insertions(+)").toList]⟩]

def c7set : Settings := ⟨0, 1000000000, 2, 1, 1/4, 2⟩

/-- C7 (refuting evaluation): with `maxHoursPerDay = 2` and
`minCommitTime = 1`, a day of four commits clamps three of them
(`k = 3`), the remaining budget `2 - 3 * 1 = -1` is negative, and the
unflagged commit's rescaled time is `-11/20 < 0`. -/
theorem equalCalculation_negative_time_counterexample :
    (equalCalculation c7raw c7set).map (fun r => r.commits.map (fun c => c.time)) =
      .ok [some 1, some 1, some 1, some (-(11/20))] ∧
    (-(11 : ℚ)/20) < 0 :=
  ⟨by decide, by decide⟩

def w7raw : List GitReport :=
  [⟨"a/b/.git".toList,
    [("f1;h1;100000;m1" ++ "\n" ++ "1 file changed, 1 insertions(+)").toList,
     ("f2;h2;100001;m2" ++ "\n" ++ "1 file changed, 127 insertions(+)").toList]⟩]

def w7set : Settings := ⟨0, 1000000000, 8, 1/4, 1/4, 2⟩

def w7parsed : List Commit :=
  [⟨some "f1".toList, some "h1".toList, 100000000, 1, some "m1".toList, some "b".toList, 1,
    none, false⟩,
   ⟨some "f2".toList, some "h2".toList, 100001000, 1, some "m2".toList, some "b".toList, 127,
    none, false⟩]

def w7sres : CalcResult :=
  ⟨[⟨some "f1".toList, some "h1".toList, 100000000, 1, some "m1".toList, some "b".toList, 1,
      some (1/4), false⟩,
    ⟨some "f2".toList, some "h2".toList, 100001000, 1, some "m2".toList, some "b".toList, 127,
      some (31/4), false⟩],
   [(1, 2)]⟩

def w7eres : CalcResult :=
  ⟨[⟨some "f1".toList, some "h1".toList, 100000000, 1, some "m1".toList, some "b".toList, 1,
      some (1/4), true⟩,
    ⟨some "f2".toList, some "h2".toList, 100001000, 1, some "m2".toList, some "b".toList, 127,
      some (769/100), false⟩],
   [(1, 2)]⟩

/-- Witness for `calculation_time_nonneg`: both strategies on a
two-commit day, including an equal-strategy clamp. -/
theorem calculation_time_nonneg_witness :
    (standardCalculation w7raw w7set = .ok w7sres ∧
      ∀ c ∈ w7sres.commits, ∃ t, c.time = some t ∧ 0 ≤ t) ∧
    (equalCalculation w7raw w7set = .ok w7eres ∧
      (∀ c0 ∈ w7parsed, 0 < dayLines w7parsed c0.shortDate) ∧
      (∀ c0 ∈ w7parsed,
        (dayFlagCount w7set (annotate (equalTime w7set) w7parsed) c0.shortDate : ℚ) *
          w7set.minCommitTime ≤ w7set.maxHoursPerDay) ∧
      ∀ c ∈ w7eres.commits, ∃ t, c.time = some t ∧ 0 ≤ t) :=
  ⟨⟨by decide,
    calculation_time_nonneg.1 w7raw w7set w7sres (by decide) (by decide) (by decide)
      (by decide)⟩,
   ⟨by decide, by decide, by decide,
    calculation_time_nonneg.2 w7raw w7set w7parsed w7eres (by decide) (by decide) (by decide)
      (by decide) (by decide) (by decide)⟩⟩

theorem sum_div_mul (l : List Commit) (L m : ℚ) :
    (l.map (fun c => (c.lines : ℚ) / L * m)).sum =
      (((l.map (fun c => c.lines)).sum : ℕ) : ℚ) / L * m := by
  induction l with
  | nil => simp
  | cons c t ih =>
    simp only [List.map_cons, List.sum_cons]
    rw [ih]
    push_cast
    ring

theorem abs_sum_jsRoundTwice_sub (l : List Commit) (f : Commit → ℚ) (p : Nat) :
    |(l.map (fun c => jsRound (jsRound (f c) (p + 1)) p)).sum - (l.map f).sum| ≤
      (l.length : ℚ) * roundSlack p := by
  induction l with
  | nil => simp
  | cons c t ih =>
    simp only [List.map_cons, List.sum_cons, List.length_cons]
    have h1 := abs_jsRoundTwice_sub (f c) p
    have h2 : |(jsRound (jsRound (f c) (p + 1)) p +
          (t.map (fun c => jsRound (jsRound (f c) (p + 1)) p)).sum) -
        (f c + (t.map f).sum)| ≤
        |jsRound (jsRound (f c) (p + 1)) p - f c| +
          |(t.map (fun c => jsRound (jsRound (f c) (p + 1)) p)).sum - (t.map f).sum| := by
      have := abs_add (jsRound (jsRound (f c) (p + 1)) p - f c)
        ((t.map (fun c => jsRound (jsRound (f c) (p + 1)) p)).sum - (t.map f).sum)
      calc |(jsRound (jsRound (f c) (p + 1)) p +
            (t.map (fun c => jsRound (jsRound (f c) (p + 1)) p)).sum) -
          (f c + (t.map f).sum)| =
          |(jsRound (jsRound (f c) (p + 1)) p - f c) +
            ((t.map (fun c => jsRound (jsRound (f c) (p + 1)) p)).sum - (t.map f).sum)| := by
            ring_nf
        _ ≤ _ := this
    push_cast
    calc |(jsRound (jsRound (f c) (p + 1)) p +
          (t.map (fun c => jsRound (jsRound (f c) (p + 1)) p)).sum) -
        (f c + (t.map f).sum)| ≤
        |jsRound (jsRound (f c) (p + 1)) p - f c| +
          |(t.map (fun c => jsRound (jsRound (f c) (p + 1)) p)).sum - (t.map f).sum| := h2
      _ ≤ roundSlack p + (t.length : ℚ) * roundSlack p := add_le_add h1 ih
      _ = ((t.length : ℚ) + 1) * roundSlack p := by ring

/-- C2 (amended): for a day bucket with positive total lines on which
the equal strategy clamps no commit (every proportional allocation is
at least `minCommitTime`), the day's times sum to `maxHoursPerDay` up
to the two-step rounding tolerance `N * roundSlack`, and no commit's
final time falls below `minCommitTime` by more than one rounding slack.
When clamping does occur the rescaling breaks both bounds — see the
counterexample. -/
theorem equalCalculation_day_sum_no_clamp (raw : List GitReport) (s : Settings)
    (parsed : List Commit) (res : CalcResult) (d : Int)
    (hp : _parse raw s = .ok parsed) (hres : equalCalculation raw s = .ok res)
    (hL : 0 < dayLines parsed d)
    (hflag : dayFlagCount s (annotate (equalTime s) parsed) d = 0) :
    |((res.commits.filter (fun c => c.shortDate == d)).filterMap (fun c => c.time)).sum -
        s.maxHoursPerDay| ≤
      ((res.commits.filter (fun c => c.shortDate == d)).length : ℚ) *
        roundSlack s.equalRoundPrecision ∧
    ∀ c ∈ res.commits.filter (fun c => c.shortDate == d),
      ∃ t, c.time = some t ∧ s.minCommitTime - roundSlack s.equalRoundPrecision ≤ t := by
  obtain ⟨parsed2, hp2, -, hcom, -⟩ := equal_ok hres
  rw [hp] at hp2
  cases hp2
  have hnotbelow : ∀ x ∈ (annotate (equalTime s) parsed).filter (fun c => c.shortDate == d),
      timeBelow s.minCommitTime x = false := by
    rw [dayFlagCount] at hflag
    have hnil := List.length_eq_zero.mp hflag
    intro x hx
    by_contra hxx
    rw [Bool.not_eq_false] at hxx
    have hmem : x ∈ List.filter (timeBelow s.minCommitTime)
        ((annotate (equalTime s) parsed).filter (fun c => c.shortDate == d)) :=
      List.mem_filter.mpr ⟨hx, hxx⟩
    rw [hnil] at hmem
    cases hmem
  have hfil : res.commits.filter (fun c => c.shortDate == d) =
      (parsed.filter (fun c => c.shortDate == d)).map
        (fun c0 => equalFinalCommit s (annotate (equalTime s) parsed)
          ({ c0 with time := equalTime s (ratioOf parsed c0) })) := by
    rw [hcom, List.filter_map]
    have hpred : ((fun c => c.shortDate == d) ∘
        equalFinalCommit s (annotate (equalTime s) parsed)) =
        (fun c => c.shortDate == d) := rfl
    rw [hpred, filter_annotate, List.map_map]
    rfl
  have hmemday : ∀ c0 ∈ parsed.filter (fun c => c.shortDate == d),
      ({ c0 with time := equalTime s (ratioOf parsed c0) } : Commit) ∈
        (annotate (equalTime s) parsed).filter (fun c => c.shortDate == d) := by
    intro c0 hc0
    have hm := List.mem_filter.mp hc0
    refine List.mem_filter.mpr ⟨?_, hm.2⟩
    rw [annotate]
    exact List.mem_map.mpr ⟨c0, hm.1, rfl⟩
  have hro : ∀ c0 ∈ parsed.filter (fun c => c.shortDate == d),
      ratioOf parsed c0 = some ((c0.lines : ℚ) / (dayLines parsed d : ℚ)) := by
    intro c0 hc0
    have hd0 : c0.shortDate = d := beq_iff_eq.mp (List.mem_filter.mp hc0).2
    rw [ratioOf, hd0, if_neg (Nat.pos_iff_ne_zero.mp hL)]
  have hge : ∀ c0 ∈ parsed.filter (fun c => c.shortDate == d),
      s.minCommitTime ≤ (c0.lines : ℚ) / (dayLines parsed d : ℚ) * s.maxHoursPerDay := by
    intro c0 hc0
    have hb := hnotbelow _ (hmemday c0 hc0)
    rw [timeBelow] at hb
    have ht : ({ c0 with time := equalTime s (ratioOf parsed c0) } : Commit).time =
        some ((c0.lines : ℚ) / (dayLines parsed d : ℚ) * s.maxHoursPerDay) := by
      show equalTime s (ratioOf parsed c0) = _
      rw [hro c0 hc0, equalTime, Option.map_some']
    rw [ht] at hb
    exact not_lt.mp (of_decide_eq_false hb)
  have hpoint : ∀ c0 ∈ parsed.filter (fun c => c.shortDate == d),
      equalFinalCommit s (annotate (equalTime s) parsed)
          ({ c0 with time := equalTime s (ratioOf parsed c0) }) =
        { c0 with
          time := some (jsRound (jsRound ((c0.lines : ℚ) / (dayLines parsed d : ℚ) *
            s.maxHoursPerDay) (s.equalRoundPrecision + 1)) s.equalRoundPrecision),
          isMinCommitTime := c0.isMinCommitTime } := by
    intro c0 hc0
    have hd0 : c0.shortDate = d := beq_iff_eq.mp (List.mem_filter.mp hc0).2
    have hb := hnotbelow _ (hmemday c0 hc0)
    have hk : dayFlagCount s (annotate (equalTime s) parsed)
        ({ c0 with time := equalTime s (ratioOf parsed c0) } : Commit).shortDate = 0 := by
      show dayFlagCount s (annotate (equalTime s) parsed) c0.shortDate = 0
      rw [hd0]
      exact hflag
    rw [efc_not_below_k0 _ _ _ hb hk]
    simp only [hro c0 hc0, equalTime, Option.map_some']
  rw [hfil, List.map_congr_left hpoint]
  constructor
  · rw [List.filterMap_map]
    have hcomp : ((fun c => c.time) ∘ fun (c0 : Commit) =>
        ({ c0 with
          time := some (jsRound (jsRound ((c0.lines : ℚ) / (dayLines parsed d : ℚ) *
            s.maxHoursPerDay) (s.equalRoundPrecision + 1)) s.equalRoundPrecision),
          isMinCommitTime := c0.isMinCommitTime } : Commit)) =
        (some ∘ fun c0 => jsRound (jsRound ((c0.lines : ℚ) / (dayLines parsed d : ℚ) *
            s.maxHoursPerDay) (s.equalRoundPrecision + 1)) s.equalRoundPrecision) := rfl
    rw [hcomp, List.filterMap_eq_map, List.length_map]
    have hsumtf : ((parsed.filter (fun c => c.shortDate == d)).map
        (fun c0 => (c0.lines : ℚ) / (dayLines parsed d : ℚ) * s.maxHoursPerDay)).sum =
        s.maxHoursPerDay := by
      rw [sum_div_mul]
      have hcast : ((((parsed.filter (fun c => c.shortDate == d)).map
          (fun c => c.lines)).sum : ℕ) : ℚ) = (dayLines parsed d : ℚ) := by
        rw [dayLines_eq]
      rw [hcast, div_self (by exact_mod_cast Nat.pos_iff_ne_zero.mp hL), one_mul]
    have habs := abs_sum_jsRoundTwice_sub (parsed.filter (fun c => c.shortDate == d))
      (fun c0 => (c0.lines : ℚ) / (dayLines parsed d : ℚ) * s.maxHoursPerDay)
      s.equalRoundPrecision
    rw [hsumtf] at habs
    exact habs
  · intro c hc
    obtain ⟨c0, hc0, rfl⟩ := List.mem_map.mp hc
    refine ⟨_, rfl, ?_⟩
    have h1 := abs_jsRoundTwice_sub ((c0.lines : ℚ) / (dayLines parsed d : ℚ) *
      s.maxHoursPerDay) s.equalRoundPrecision
    have h2 := hge c0 hc0
    have h3 := (abs_le.mp h1).1
    linarith

def c2raw : List GitReport :=
  [⟨"a/b/.git".toList,
    [("f1;h1;100000;m1" ++ "\n" ++ "1 file changed, 1 insertions(+)").toList,
     ("f2;h2;100001;m2" ++ "\n" ++ "1 file changed, 15 insertions(+)").toList]⟩]

def c2set : Settings := ⟨0, 1000000000, 8, 1, 1/4, 2⟩

/-- C2 (refuting evaluation): when a commit is clamped
(`0.5 < minCommitTime = 1`), the rescaling step makes the day's final
times `1` and `6.56` sum to `7.56`, off `maxHoursPerDay = 8` by
`0.44` — far beyond the rounding tolerance at 2 digits. -/
theorem equalCalculation_day_sum_counterexample :
    (equalCalculation c2raw c2set).map (fun r => r.commits.map (fun c => c.time)) =
      .ok [some 1, some (164/25)] ∧
    (1 : ℚ) + 164/25 = 189/25 ∧
    ¬ (|(189/25 : ℚ) - c2set.maxHoursPerDay| ≤
        (2 : ℚ) * roundSlack c2set.equalRoundPrecision) :=
  ⟨by decide, by decide, by decide⟩

def w2raw : List GitReport :=
  [⟨"a/b/.git".toList,
    [("f1;h1;100000;m1" ++ "\n" ++ "1 file changed, 1 insertions(+)").toList,
     ("f2;h2;100001;m2" ++ "\n" ++ "1 file changed, 15 insertions(+)").toList]⟩]

def w2set : Settings := ⟨0, 1000000000, 8, 1/4, 1/4, 2⟩

def w2parsed : List Commit :=
  [⟨some "f1".toList, some "h1".toList, 100000000, 1, some "m1".toList, some "b".toList, 1,
    none, false⟩,
   ⟨some "f2".toList, some "h2".toList, 100001000, 1, some "m2".toList, some "b".toList, 15,
    none, false⟩]

def w2res : CalcResult :=
  ⟨[⟨some "f1".toList, some "h1".toList, 100000000, 1, some "m1".toList, some "b".toList, 1,
      some (1/2), false⟩,
    ⟨some "f2".toList, some "h2".toList, 100001000, 1, some "m2".toList, some "b".toList, 15,
      some (15/2), false⟩],
   [(1, 2)]⟩

/-- Witness for `equalCalculation_day_sum_no_clamp`: a two-commit day
with no clamping; times `0.5` and `7.5` sum to exactly `8`. -/
theorem equalCalculation_day_sum_no_clamp_witness :
    _parse w2raw w2set = .ok w2parsed ∧
    equalCalculation w2raw w2set = .ok w2res ∧
    0 < dayLines w2parsed 1 ∧
    dayFlagCount w2set (annotate (equalTime w2set) w2parsed) 1 = 0 ∧
    (|((w2res.commits.filter (fun c => c.shortDate == 1)).filterMap (fun c => c.time)).sum -
        w2set.maxHoursPerDay| ≤
      ((w2res.commits.filter (fun c => c.shortDate == 1)).length : ℚ) *
        roundSlack w2set.equalRoundPrecision ∧
      ∀ c ∈ w2res.commits.filter (fun c => c.shortDate == 1),
        ∃ t, c.time = some t ∧ w2set.minCommitTime - roundSlack w2set.equalRoundPrecision ≤ t) :=
  ⟨by decide, by decide, by decide, by decide,
    equalCalculation_day_sum_no_clamp w2raw w2set w2parsed w2res 1 (by decide) (by decide)
      (by decide) (by decide)⟩
